import Mathlib

/-!
Verification of the Tic Tac Toe rules engine
(src/tic_tac_toe_frontend/src/App.js).

The board is nine cells, each empty or holding a mark; the engine is
`calculateWinner` (win detection over the eight fixed lines), the click
handler (move application with silent rejection of illegal moves), the
draw/full derivations, and the reset handler.  All definitions below are
shallow embeddings of those functions.
-/

namespace TicTacToe

/-- A player's mark: "X" or "O". -/
inductive Mark : Type
| X : Mark
| O : Mark
deriving DecidableEq, Repr, Fintype

/-- One board cell: `none` models JavaScript `null` (empty), `some m` a mark. -/
abbrev Cell : Type := Option Mark

/-- The board: nine cells, indexed 0..8 (App.js uses a 9-element array). -/
abbrev Board : Type := Fin 9 → Cell

/-- An index triple, one candidate winning line. -/
abbrev Triple : Type := Fin 9 × Fin 9 × Fin 9

/-- The `lines` array of `calculateWinner` (App.js lines 11-15):
3 rows top-to-bottom, 3 columns left-to-right, the 2 diagonals. -/
def lines : List Triple :=
  [(0, 1, 2), (3, 4, 5), (6, 7, 8),
   (0, 3, 6), (1, 4, 7), (2, 5, 8),
   (0, 4, 8), (2, 4, 6)]

/-- The scan loop of `calculateWinner` (App.js lines 16-21): for each triple
`(a, b, c)` in order, if `squares[a]` is truthy and equals `squares[b]` and
`squares[c]`, return that mark and triple; otherwise fall through to
`(null, [])`. -/
def winnerAux (squares : Board) : List Triple → Option Mark × List (Fin 9)
| [] => (none, [])
| t :: rest =>
    if (squares t.1).isSome ∧ squares t.1 = squares t.2.1 ∧ squares t.1 = squares t.2.2 then
      (squares t.1, [t.1, t.2.1, t.2.2])
    else winnerAux squares rest

/-- `calculateWinner` (App.js lines 10-22): the winner (or `none`) together
with the winning line indices (or `[]`). -/
def calculateWinner (squares : Board) : Option Mark × List (Fin 9) :=
  winnerAux squares lines

/-- A triple is completed by mark `m`: all three of its cells hold `m`. -/
def lineComplete (squares : Board) (t : Triple) (m : Mark) : Prop :=
  squares t.1 = some m ∧ squares t.2.1 = some m ∧ squares t.2.2 = some m

instance (squares : Board) (t : Triple) (m : Mark) : Decidable (lineComplete squares t m) :=
  inferInstanceAs (Decidable (_ ∧ _ ∧ _))

/-- `squares.every(Boolean)` (App.js line 88): every cell is non-empty. -/
def isBoardFull (squares : Board) : Bool :=
  (List.finRange 9).all fun i => (squares i).isSome

/-- The derived game outcome of the spec: in-progress, a winner with its
line, or a draw. -/
inductive Outcome : Type
| inProgress : Outcome
| winner (m : Mark) (line : List (Fin 9)) : Outcome
| draw : Outcome
deriving DecidableEq, Repr

/-- The spec's `evaluate(board) → Outcome`, assembled exactly as App.js
derives it (lines 82-93): the result of `calculateWinner` if a winner
exists, otherwise draw when the board is full, otherwise in-progress. -/
def evaluate (squares : Board) : Outcome :=
  match calculateWinner squares with
  | (some w, l) => Outcome.winner w l
  | (none, _) => if isBoardFull squares then Outcome.draw else Outcome.inProgress

/-- The component state (App.js lines 79-80): the `squares` array and the
`xIsNext` turn flag. -/
structure GameState : Type where
  squares : Board
  xIsNext : Bool

/-- `currentPlayer` (App.js line 95). -/
def currentPlayer (g : GameState) : Mark :=
  if g.xIsNext then Mark.X else Mark.O

/-- `isDraw` (App.js line 92): no winner and the board is full. -/
def isDraw (g : GameState) : Bool :=
  !(calculateWinner g.squares).1.isSome && isBoardFull g.squares

/-- `gameOver` (App.js line 93): a winner exists or the position is a draw. -/
def gameOver (g : GameState) : Bool :=
  (calculateWinner g.squares).1.isSome || isDraw g

/-- `handleSquareClick` (App.js lines 103-109), the spec's `applyMove`:
return the state unchanged if the cell is occupied or the game is over;
otherwise set the cell to the current player's mark and flip the turn. -/
def handleSquareClick (g : GameState) (index : Fin 9) : GameState :=
  if (g.squares index).isSome || gameOver g then g
  else { squares := Function.update g.squares index (some (currentPlayer g)),
         xIsNext := !g.xIsNext }

/-- The initial component state (App.js lines 79-80): `Array(9).fill(null)`
and `xIsNext = true`. -/
def initialState : GameState :=
  { squares := fun _ => none, xIsNext := true }

/-- `resetGame` (App.js lines 111-114): from any state, set the board to
nine nulls and `xIsNext` to `true`. -/
def resetGame (_ : GameState) : GameState :=
  { squares := fun _ => none, xIsNext := true }

/-- States reachable from the initial state through the engine alone. -/
inductive Reachable : GameState → Prop
| init : Reachable initialState
| step (g : GameState) (i : Fin 9) : Reachable g → Reachable (handleSquareClick g i)

/-- Apply a list of clicks in order through `handleSquareClick`. -/
def playMoves (g : GameState) : List (Fin 9) → GameState
| [] => g
| i :: rest => playMoves (handleSquareClick g i) rest

/-- The number of cells holding mark `m`. -/
def countMark (squares : Board) (m : Mark) : ℕ :=
  (Finset.univ.filter fun i => squares i = some m).card

example : calculateWinner (fun _ => none) = (none, []) := by decide

example :
    calculateWinner (playMoves initialState [0, 3, 1, 4, 2]).squares
      = (some Mark.X, [0, 1, 2]) := by decide

/-! ### Basic lemmas about the scan loop -/

/-- The loop's guard holds exactly when some mark completes the triple. -/
lemma winnerAux_cond_iff (squares : Board) (t : Triple) :
    ((squares t.1).isSome ∧ squares t.1 = squares t.2.1 ∧ squares t.1 = squares t.2.2)
      ↔ ∃ m, lineComplete squares t m := by
  constructor
  · rintro ⟨h1, h2, h3⟩
    rcases Option.isSome_iff_exists.mp h1 with ⟨m, hm⟩
    exact ⟨m, hm, by rw [← h2, hm], by rw [← h3, hm]⟩
  · rintro ⟨m, hm1, hm2, hm3⟩
    refine ⟨by rw [hm1]; rfl, by rw [hm1, hm2], by rw [hm1, hm3]⟩

/-- If the scan reports winner `m` with line `l`, then some triple of the
scanned list is completed by `m` and `l` lists its indices. -/
lemma winnerAux_some (squares : Board) (L : List Triple) (m : Mark) (l : List (Fin 9))
    (h : winnerAux squares L = (some m, l)) :
    ∃ t ∈ L, lineComplete squares t m ∧ l = [t.1, t.2.1, t.2.2] := by
  induction L with
  | nil => simp [winnerAux] at h
  | cons t0 rest ih =>
    rw [winnerAux] at h
    by_cases hc : (squares t0.1).isSome ∧ squares t0.1 = squares t0.2.1 ∧
        squares t0.1 = squares t0.2.2
    · rw [if_pos hc] at h
      rcases (winnerAux_cond_iff squares t0).mp hc with ⟨m0, hm0⟩
      have h1 : squares t0.1 = some m := congrArg Prod.fst h
      have h2 : l = [t0.1, t0.2.1, t0.2.2] := (congrArg Prod.snd h).symm
      have hm : m0 = m := by
        rw [hm0.1] at h1; exact Option.some_injective _ h1
      exact ⟨t0, List.mem_cons_self t0 rest, hm ▸ hm0, h2⟩
    · rw [if_neg hc] at h
      rcases ih h with ⟨t, ht, hcomp, hl⟩
      exact ⟨t, List.mem_cons_of_mem t0 ht, hcomp, hl⟩

/-- If no triple of the scanned list is completed, the scan reports no
winner and the empty line. -/
lemma winnerAux_none (squares : Board) (L : List Triple)
    (h : ∀ t ∈ L, ∀ m, ¬ lineComplete squares t m) :
    winnerAux squares L = (none, []) := by
  induction L with
  | nil => rfl
  | cons t0 rest ih =>
    rw [winnerAux, if_neg, ih]
    · intro t ht m; exact h t (List.mem_cons_of_mem t0 ht) m
    · intro hc
      rcases (winnerAux_cond_iff squares t0).mp hc with ⟨m0, hm0⟩
      exact h t0 (List.mem_cons_self t0 rest) m0 hm0

/-- If some triple of the scanned list is completed, the scan reports a
winner. -/
lemma winnerAux_isSome (squares : Board) (L : List Triple) (t : Triple)
    (ht : t ∈ L) (m : Mark) (hc : lineComplete squares t m) :
    (winnerAux squares L).1.isSome = true := by
  induction L with
  | nil => cases ht
  | cons t0 rest ih =>
    rw [winnerAux]
    by_cases hc0 : (squares t0.1).isSome ∧ squares t0.1 = squares t0.2.1 ∧
        squares t0.1 = squares t0.2.2
    · rw [if_pos hc0]; exact hc0.1
    · rw [if_neg hc0]
      rcases List.mem_cons.mp ht with h0 | hrest
      · exact absurd ((winnerAux_cond_iff squares t0).mpr ⟨m, h0 ▸ hc⟩) hc0
      · exact ih hrest

/-- No line is completed on a board whose scan reports no winner. -/
lemma not_lineComplete_of_winner_none (squares : Board)
    (h : (calculateWinner squares).1 = none) :
    ∀ t ∈ lines, ∀ m, ¬ lineComplete squares t m := by
  intro t ht m hc
  have := winnerAux_isSome squares lines t ht m hc
  rw [calculateWinner] at h
  rw [h] at this
  cases this

/-- First-match characterization of the scan loop: it reports winner `w`
with line `l` exactly when some triple `t` of the scanned list is completed
by `w`, `l` lists its indices, and no triple strictly before `t` in the
list is completed by any mark. -/
lemma winnerAux_eq_some_iff (squares : Board) (w : Mark) (l : List (Fin 9))
    (L : List Triple) :
    winnerAux squares L = (some w, l) ↔
      ∃ pre t post, L = pre ++ t :: post ∧ lineComplete squares t w ∧
        l = [t.1, t.2.1, t.2.2] ∧ ∀ u ∈ pre, ∀ m, ¬ lineComplete squares u m := by
  induction L with
  | nil =>
    constructor
    · intro h; simp [winnerAux] at h
    · rintro ⟨pre, t, post, hL, -⟩
      exact absurd hL.symm (List.append_ne_nil_of_right_ne_nil pre (List.cons_ne_nil t post))
  | cons t0 rest ih =>
    rw [winnerAux]
    by_cases hc : (squares t0.1).isSome ∧ squares t0.1 = squares t0.2.1 ∧
        squares t0.1 = squares t0.2.2
    · rw [if_pos hc]
      rcases (winnerAux_cond_iff squares t0).mp hc with ⟨m0, hm0⟩
      constructor
      · intro h
        have h1 : squares t0.1 = some w := congrArg Prod.fst h
        have hw : m0 = w := by
          rw [hm0.1] at h1; exact Option.some_injective _ h1
        refine ⟨[], t0, rest, rfl, hw ▸ hm0, (congrArg Prod.snd h).symm, ?_⟩
        intro u hu; cases hu
      · rintro ⟨pre, t, post, hL, hcomp, hl, hpre⟩
        cases pre with
        | nil =>
          have ht0 : t = t0 := by
            have := hL; simp only [List.nil_append, List.cons.injEq] at this
            exact this.1.symm
          subst ht0
          have hw : squares t.1 = some w := hcomp.1
          rw [hl, hw]
        | cons p pre2 =>
          have hp : p = t0 := by
            simp only [List.cons_append, List.cons.injEq] at hL
            exact hL.1.symm
          exact absurd hm0 (hp ▸ hpre p (List.mem_cons_self p pre2) m0)
    · rw [if_neg hc, ih]
      constructor
      · rintro ⟨pre, t, post, hL, hcomp, hl, hpre⟩
        refine ⟨t0 :: pre, t, post, by rw [hL, List.cons_append], hcomp, hl, ?_⟩
        intro u hu m
        rcases List.mem_cons.mp hu with h0 | h1
        · subst h0; intro hcm
          exact hc ((winnerAux_cond_iff squares u).mpr ⟨m, hcm⟩)
        · exact hpre u h1 m
      · rintro ⟨pre, t, post, hL, hcomp, hl, hpre⟩
        cases pre with
        | nil =>
          have ht0 : t = t0 := by
            simp only [List.nil_append, List.cons.injEq] at hL
            exact hL.1.symm
          subst ht0
          exact absurd ((winnerAux_cond_iff squares t).mpr ⟨w, hcomp⟩) hc
        | cons p pre2 =>
          simp only [List.cons_append, List.cons.injEq] at hL
          refine ⟨pre2, t, post, hL.2, hcomp, hl, ?_⟩
          intro u hu m
          exact hpre u (List.mem_cons_of_mem p hu) m

/-! ### Reachability -/

/-- Playing any click sequence from a reachable state stays reachable. -/
lemma reachable_playMoves (ms : List (Fin 9)) :
    ∀ g, Reachable g → Reachable (playMoves g ms) := by
  induction ms with
  | nil => intro g hg; exact hg
  | cons i rest ih => intro g hg; exact ih _ (Reachable.step g i hg)

/-- A rejected click leaves the state untouched; an accepted one happens on
an empty cell of a non-finished game and writes the current player's mark. -/
lemma handleSquareClick_cases (g : GameState) (i : Fin 9) :
    (((g.squares i).isSome || gameOver g) = true ∧ handleSquareClick g i = g) ∨
    (g.squares i = none ∧ gameOver g = false ∧
      handleSquareClick g i =
        { squares := Function.update g.squares i (some (currentPlayer g)),
          xIsNext := !g.xIsNext }) := by
  by_cases hcond : ((g.squares i).isSome || gameOver g) = true
  · exact Or.inl ⟨hcond, by rw [handleSquareClick, if_pos hcond]⟩
  · refine Or.inr ⟨?_, ?_, by rw [handleSquareClick, if_neg hcond]⟩
    · rcases Bool.or_eq_true _ _ ▸ hcond with h
      exact Option.not_isSome_iff_eq_none.mp fun hs => h (Or.inl hs)
    · rcases Bool.or_eq_true _ _ ▸ hcond with h
      exact Bool.eq_false_iff.mpr fun hs => h (Or.inr hs)

/-- When a game is not over, its board has no winner. -/
lemma winner_none_of_not_gameOver (g : GameState) (h : gameOver g = false) :
    (calculateWinner g.squares).1 = none := by
  rw [gameOver, Bool.or_eq_false_iff] at h
  exact Option.not_isSome_iff_eq_none.mp (by rw [h.1]; exact Bool.false_ne_true)

/-- On a board with no completed line, a line completed after writing mark
`p` into one cell must be completed by `p` itself. -/
lemma lineComplete_update_eq (squares : Board) (i : Fin 9) (p : Mark)
    (hno : ∀ t ∈ lines, ∀ m, ¬ lineComplete squares t m)
    (t : Triple) (ht : t ∈ lines) (m : Mark)
    (hc : lineComplete (Function.update squares i (some p)) t m) : m = p := by
  by_cases h1 : t.1 = i
  · have := hc.1; rw [h1, Function.update_same] at this
    exact (Option.some_injective _ this).symm
  by_cases h2 : t.2.1 = i
  · have := hc.2.1; rw [h2, Function.update_same] at this
    exact (Option.some_injective _ this).symm
  by_cases h3 : t.2.2 = i
  · have := hc.2.2; rw [h3, Function.update_same] at this
    exact (Option.some_injective _ this).symm
  · exfalso
    refine hno t ht m ⟨?_, ?_, ?_⟩
    · rw [← Function.update_noteq h1 (some p) squares]; exact hc.1
    · rw [← Function.update_noteq h2 (some p) squares]; exact hc.2.1
    · rw [← Function.update_noteq h3 (some p) squares]; exact hc.2.2

/-- On every reachable board, any two completed lines carry the same mark. -/
lemma marks_agree_of_reachable (g : GameState) (hg : Reachable g) :
    ∀ t1 ∈ lines, ∀ t2 ∈ lines, ∀ m1 m2,
      lineComplete g.squares t1 m1 → lineComplete g.squares t2 m2 → m1 = m2 := by
  induction hg with
  | init =>
    intro t1 ht1 t2 ht2 m1 m2 h1 h2
    exact absurd h1.1 (by rw [initialState]; exact fun h => Option.noConfusion h)
  | step g i hg ih =>
    rcases handleSquareClick_cases g i with ⟨-, heq⟩ | ⟨hocc, hover, heq⟩
    · rw [heq]; exact ih
    · rw [heq]
      intro t1 ht1 t2 ht2 m1 m2 h1 h2
      have hno : ∀ t ∈ lines, ∀ m, ¬ lineComplete g.squares t m :=
        not_lineComplete_of_winner_none g.squares (winner_none_of_not_gameOver g hover)
      have e1 := lineComplete_update_eq g.squares i (currentPlayer g) hno t1 ht1 m1 h1
      have e2 := lineComplete_update_eq g.squares i (currentPlayer g) hno t2 ht2 m2 h2
      rw [e1, e2]

/-! ### Mark counting -/

/-- Writing mark `m` into an empty cell raises the count of `m` by one. -/
lemma countMark_update_self (squares : Board) (i : Fin 9) (m : Mark)
    (hi : squares i = none) :
    countMark (Function.update squares i (some m)) m = countMark squares m + 1 := by
  unfold countMark
  have hins : (Finset.univ.filter fun j => Function.update squares i (some m) j = some m)
      = insert i (Finset.univ.filter fun j => squares j = some m) := by
    ext j
    simp only [Finset.mem_filter, Finset.mem_univ, true_and, Finset.mem_insert]
    by_cases hj : j = i
    · subst hj; simp [Function.update_same]
    · rw [Function.update_noteq hj]
      constructor
      · exact fun h => Or.inr h
      · rintro (h | h)
        · exact absurd h hj
        · exact h
  rw [hins, Finset.card_insert_of_not_mem]
  simp [hi]

/-- Writing mark `m` into an empty cell leaves the count of any other mark
unchanged. -/
lemma countMark_update_other (squares : Board) (i : Fin 9) (m mq : Mark)
    (hi : squares i = none) (hne : m ≠ mq) :
    countMark (Function.update squares i (some m)) mq = countMark squares mq := by
  unfold countMark
  congr 1
  ext j
  simp only [Finset.mem_filter, Finset.mem_univ, true_and]
  by_cases hj : j = i
  · subst hj
    rw [Function.update_same, hi]
    constructor
    · intro h; exact absurd (Option.some_injective _ h) hne
    · intro h; exact Option.noConfusion h
  · rw [Function.update_noteq hj]

/-- The turn flag determines the count difference on reachable states:
equal counts when X is to move, one extra X when O is to move. -/
lemma count_inv_of_reachable (g : GameState) (hg : Reachable g) :
    countMark g.squares Mark.X
      = countMark g.squares Mark.O + (if g.xIsNext then 0 else 1) := by
  induction hg with
  | init => decide
  | step g i hg ih =>
    rcases handleSquareClick_cases g i with ⟨-, heq⟩ | ⟨hocc, hover, heq⟩
    · rw [heq]; exact ih
    · rw [heq]
      dsimp only
      cases hx : g.xIsNext
      · have hp : currentPlayer g = Mark.O := by rw [currentPlayer, hx]; rfl
        rw [hp,
          countMark_update_other g.squares i Mark.O Mark.X hocc (fun h => Mark.noConfusion h),
          countMark_update_self g.squares i Mark.O hocc]
        rw [hx] at ih
        simpa using ih
      · have hp : currentPlayer g = Mark.X := by rw [currentPlayer, hx]; rfl
        rw [hp,
          countMark_update_self g.squares i Mark.X hocc,
          countMark_update_other g.squares i Mark.X Mark.O hocc (fun h => Mark.noConfusion h)]
        rw [hx] at ih
        simpa using ih

/-! ### Concrete positions -/

/-- A board whose only marks are X across the top row. -/
def xRowBoard : Board := fun i => if i.val < 3 then some Mark.X else none

/-- The unreachable board XXX / OOO / empty: the top row is all X and the
middle row all O. -/
def doubleRowBoard : Board :=
  fun i => if i.val < 3 then some Mark.X else if i.val < 6 then some Mark.O else none

/-- A legal game in which X's last click on square 0 completes the top row
and the left column at once: X takes 1, 2, 3, 6, 0 while O takes
4, 5, 7, 8. -/
def doubleWinMoves : List (Fin 9) := [1, 4, 2, 5, 3, 7, 6, 8, 0]

/-- The state at the end of `doubleWinMoves`. -/
def doubleWinState : GameState := playMoves initialState doubleWinMoves

/-- The double-win position is reachable through the engine. -/
lemma doubleWin_reachable : Reachable doubleWinState :=
  reachable_playMoves doubleWinMoves initialState Reachable.init

/-- A state with a single X in the center. -/
def occupiedState : GameState := playMoves initialState [4]

example : lineComplete doubleWinState.squares (0, 1, 2) Mark.X := by decide

example : lineComplete doubleWinState.squares (0, 3, 6) Mark.X := by decide

example : calculateWinner doubleRowBoard = (some Mark.X, [0, 1, 2]) := by decide

example : occupiedState.squares 4 = some Mark.X := by decide

/-- A scan reporting no winner reports the empty line with it. -/
lemma winnerAux_fst_none (squares : Board) (L : List Triple)
    (h : (winnerAux squares L).1 = none) : winnerAux squares L = (none, []) := by
  induction L with
  | nil => rfl
  | cons t0 rest ih =>
    rw [winnerAux] at h ⊢
    by_cases hc : (squares t0.1).isSome ∧ squares t0.1 = squares t0.2.1 ∧
        squares t0.1 = squares t0.2.2
    · rw [if_pos hc] at h
      have h4 : squares t0.1 = none := h
      rw [h4] at hc
      exact absurd hc.1 (fun hfalse => Bool.noConfusion hfalse)
    · rw [if_neg hc] at h ⊢
      exact ih h

/-- The well-formedness of a `calculateWinner` result: a reported winner
comes with one of the eight triples, completed by that winner; no winner
comes with the empty line. -/
def resultWellFormed (squares : Board) : Prop :=
  match calculateWinner squares with
  | (some w, l) => ∃ t ∈ lines, l = [t.1, t.2.1, t.2.2] ∧ lineComplete squares t w
  | (none, l) => l = []

/-! ### The claims -/

/-- C1 counterexample: on the (unreachable) board XXX / OOO / empty, the
middle row is an all-O line, yet `calculateWinner` does not report winner
O — it reports X, the earlier match in scan order.  So over all 9-cell
assignments, "returns winner W iff some line is all W" fails. -/
theorem C1_counterexample :
    ¬ ((calculateWinner doubleRowBoard).1 = some Mark.O ↔
        ∃ t ∈ lines, lineComplete doubleRowBoard t Mark.O) := by decide

/-- C1 (amended): for every board on which every completed line carries
mark W (in particular, no line is completed by the other mark),
`calculateWinner` reports winner W iff some winning line has all three
cells equal to W.  On arbitrary boards only this restricted form holds:
when both marks complete lines, the scan reports just the first one. -/
theorem C1_winner_iff_line (squares : Board) (W : Mark)
    (h : ∀ t ∈ lines, ∀ m, lineComplete squares t m → m = W) :
    (calculateWinner squares).1 = some W ↔
      ∃ t ∈ lines, lineComplete squares t W := by
  constructor
  · intro hw
    rcases h2 : calculateWinner squares with ⟨w1, l1⟩
    rw [h2] at hw
    have hw2 : w1 = some W := hw
    subst hw2
    rcases winnerAux_some squares lines W l1 h2 with ⟨t, ht, hc, -⟩
    exact ⟨t, ht, hc⟩
  · rintro ⟨t, ht, hc⟩
    have hs := winnerAux_isSome squares lines t ht W hc
    rcases h2 : winnerAux squares lines with ⟨w1, l1⟩
    rw [h2] at hs
    have hs2 : w1.isSome = true := hs
    rcases Option.isSome_iff_exists.mp hs2 with ⟨m, hm⟩
    subst hm
    rcases winnerAux_some squares lines m l1 h2 with ⟨t2, ht2, hc2, -⟩
    have hmW : m = W := h t2 ht2 m hc2
    show (winnerAux squares lines).1 = some W
    rw [h2, hmW]

set_option maxRecDepth 4000 in
/-- C1 witness: on the board with only the top row filled by X, the
hypothesis holds and `calculateWinner` reports winner X. -/
theorem C1_witness : (calculateWinner xRowBoard).1 = some Mark.X :=
  (C1_winner_iff_line xRowBoard Mark.X (by decide)).mpr (by decide)

/-- C2 counterexample: the double-win position is reachable from the
initial state through `handleSquareClick` alone, yet two distinct winning
triples — the top row and the left column — are simultaneously completed
on it. -/
theorem C2_counterexample :
    Reachable doubleWinState ∧
    ((0, 1, 2) : Triple) ∈ lines ∧ ((0, 3, 6) : Triple) ∈ lines ∧
    ((0, 1, 2) : Triple) ≠ ((0, 3, 6) : Triple) ∧
    lineComplete doubleWinState.squares (0, 1, 2) Mark.X ∧
    lineComplete doubleWinState.squares (0, 3, 6) Mark.X :=
  ⟨doubleWin_reachable, by decide, by decide, by decide, by decide, by decide⟩

/-- C2 (amended): on every reachable board, any two simultaneously
completed winning triples carry the same mark — completed lines of
different marks cannot coexist, so the first-match tie-break never changes
the reported winner (though with a same-mark double win it does pick which
line is reported). -/
theorem C2_no_mixed_triples (g : GameState) (hg : Reachable g)
    (t1 t2 : Triple) (h1 : t1 ∈ lines) (h2 : t2 ∈ lines) (m1 m2 : Mark)
    (hc1 : lineComplete g.squares t1 m1) (hc2 : lineComplete g.squares t2 m2) :
    m1 = m2 :=
  marks_agree_of_reachable g hg t1 h1 t2 h2 m1 m2 hc1 hc2

/-- C2 witness: the amended statement applied to the double-win position. -/
theorem C2_witness : Mark.X = Mark.X :=
  C2_no_mixed_triples doubleWinState doubleWin_reachable (0, 1, 2) (0, 3, 6)
    (by decide) (by decide) Mark.X Mark.X (by decide) (by decide)

/-- C3: a click on an occupied cell, or any click once the game is over,
leaves the state (board and turn) completely unchanged; the handler is
total, so no error is surfaced. -/
theorem C3_illegal_click_noop (g : GameState) (i : Fin 9)
    (h : (g.squares i).isSome = true ∨ gameOver g = true) :
    handleSquareClick g i = g := by
  rw [handleSquareClick, if_pos]
  rcases h with h | h
  · rw [h]; exact Bool.true_or _
  · rw [h]; exact Bool.or_true _

/-- C3 witness: clicking the occupied center square is a no-op. -/
theorem C3_witness : handleSquareClick occupiedState 4 = occupiedState :=
  C3_illegal_click_noop occupiedState 4 (Or.inl (by decide))

/-- C4: a click on an empty cell of an unfinished game sets exactly that
cell to the current player's mark, leaves every other cell unchanged, and
flips the turn flag. -/
theorem C4_legal_click (g : GameState) (i : Fin 9)
    (h1 : g.squares i = none) (h2 : gameOver g = false) :
    (handleSquareClick g i).squares i = some (currentPlayer g) ∧
    (∀ j : Fin 9, j ≠ i → (handleSquareClick g i).squares j = g.squares j) ∧
    (handleSquareClick g i).xIsNext = !g.xIsNext := by
  have hcond : ((g.squares i).isSome || gameOver g) = false := by
    rw [h1, h2]; rfl
  rw [handleSquareClick, if_neg (by rw [hcond]; exact Bool.false_ne_true)]
  exact ⟨Function.update_same i _ _, fun j hj => Function.update_noteq hj _ _, rfl⟩

/-- C4 witness: the first click on square 0 places X there. -/
theorem C4_witness :
    (handleSquareClick initialState 0).squares 0 = some (currentPlayer initialState) :=
  (C4_legal_click initialState 0 rfl (by decide)).1

/-- C5: `calculateWinner` reports winner w with line l exactly when some
triple of the fixed list `lines` (3 rows top-to-bottom, 3 columns
left-to-right, the 2 diagonals — in that order) is completed by w, l lists
its three indices, and no triple earlier in the scan order is completed by
any mark: the FIRST matching line wins the scan. -/
theorem C5_first_match (squares : Board) (w : Mark) (l : List (Fin 9)) :
    calculateWinner squares = (some w, l) ↔
      ∃ pre t post, lines = pre ++ t :: post ∧ lineComplete squares t w ∧
        l = [t.1, t.2.1, t.2.2] ∧ ∀ u ∈ pre, ∀ m, ¬ lineComplete squares u m :=
  winnerAux_eq_some_iff squares w l lines

/-- C6: on a board where no winning line is completed, the outcome is draw
when all nine cells are filled and in-progress when some cell is empty. -/
theorem C6_draw_or_inProgress (squares : Board)
    (h : ∀ t ∈ lines, ∀ m, ¬ lineComplete squares t m) :
    ((∀ i : Fin 9, (squares i).isSome = true) → evaluate squares = Outcome.draw) ∧
    ((∃ i : Fin 9, squares i = none) → evaluate squares = Outcome.inProgress) := by
  have hw : calculateWinner squares = (none, []) := winnerAux_none squares lines h
  have hev : evaluate squares
      = if isBoardFull squares then Outcome.draw else Outcome.inProgress := by
    rw [evaluate, hw]
  constructor
  · intro hfull
    rw [hev, if_pos]
    rw [isBoardFull, List.all_eq_true]
    intro i _
    exact hfull i
  · rintro ⟨i, hi⟩
    rw [hev, if_neg]
    intro hfull
    rw [isBoardFull, List.all_eq_true] at hfull
    have := hfull i (List.mem_finRange i)
    rw [hi] at this
    exact Bool.noConfusion this

set_option maxRecDepth 4000 in
/-- C6 witness: the empty board is in progress. -/
theorem C6_witness : evaluate (fun _ => none) = Outcome.inProgress :=
  (C6_draw_or_inProgress (fun _ => none) (by decide)).2 ⟨0, rfl⟩

/-- C7: on every reachable board, the X count is at least the O count and
exceeds it by at most one. -/
theorem C7_count_invariant (g : GameState) (hg : Reachable g) :
    countMark g.squares Mark.O ≤ countMark g.squares Mark.X ∧
    countMark g.squares Mark.X ≤ countMark g.squares Mark.O + 1 := by
  have h := count_inv_of_reachable g hg
  cases hx : g.xIsNext
  · rw [hx] at h
    simp only [Bool.false_eq_true, if_false] at h
    omega
  · rw [hx] at h
    simp only [if_true] at h
    omega

/-- C7 witness: the invariant at the initial state. -/
theorem C7_witness :
    countMark initialState.squares Mark.O ≤ countMark initialState.squares Mark.X ∧
    countMark initialState.squares Mark.X ≤ countMark initialState.squares Mark.O + 1 :=
  C7_count_invariant initialState Reachable.init

/-- C8: from any state, `resetGame` returns the initial state — all nine
cells empty and X to move — which is exactly the state created at game
start. -/
theorem C8_reset_initial (g : GameState) :
    resetGame g = initialState ∧
    (∀ i : Fin 9, (resetGame g).squares i = none) ∧
    (resetGame g).xIsNext = true :=
  ⟨rfl, fun _ => rfl, rfl⟩

/-- C9: playing X@0, O@3, X@1, O@4, X@2 from the initial state yields a
board that evaluates to winner X with line [0, 1, 2]. -/
theorem C9_scenario :
    evaluate (playMoves initialState [0, 3, 1, 4, 2]).squares
      = Outcome.winner Mark.X [0, 1, 2] := by decide

/-- C10: `calculateWinner` always returns a well-formed pair: a reported
winner comes with one of the eight fixed triples whose three cells all
hold that winner's mark, and a no-winner result is exactly `(none, [])`. -/
theorem C10_wellFormed (squares : Board) : resultWellFormed squares := by
  rw [resultWellFormed]
  rcases h2 : calculateWinner squares with ⟨w1, l1⟩
  cases w1 with
  | none =>
    have h3 : winnerAux squares lines = (none, []) :=
      winnerAux_fst_none squares lines (by rw [show winnerAux squares lines = (none, l1) from h2])
    have h4 : calculateWinner squares = (none, []) := h3
    rw [h2] at h4
    show l1 = []
    exact congrArg Prod.snd h4
  | some w =>
    rcases winnerAux_some squares lines w l1 h2 with ⟨t, ht, hc, hl⟩
    show ∃ t ∈ lines, l1 = [t.1, t.2.1, t.2.2] ∧ lineComplete squares t w
    exact ⟨t, ht, hl, hc⟩

end TicTacToe
